import Mathlib

/-
Verification development for a small PyTorch training repository
(feed-forward regression networks, a training/validation loop with early
stopping, hand-rolled loss functions, a grid-search driver, and an
unscaling helper).

Shallow embedding conventions:
  - 2-D float tensors / numpy arrays are modelled as `Mat := List (List ℚ)`
    (rows = samples, columns = outputs); floats are modelled by ℚ.
  - `tensor.shape` for a rectangular 2-D tensor is `(rows, cols)`, modelled
    by `matShape`; theorems that need rectangularity take it as a hypothesis.
  - Python exceptions (`raise ValueError`, failed `assert`) are modelled by
    `Except String`.
  - Printing is not modelled, except that `unscale`'s warning print is
    reflected as a Bool flag in its result.
  - `model.state_dict()` without a deep copy returns tensors that alias
    the live parameters (which the optimizer mutates in place); the
    `best_model_state` binding is therefore modelled as an alias of the
    model's current parameters, not as an independent value.
-/

abbrev Mat : Type := List (List ℚ)

/-- Shape of a 2-D tensor, `(number of rows, number of columns)`; the column
count is read off the first row, which is the correct `shape[1]` for the
rectangular tensors produced by the library. -/
def matShape (m : Mat) : ℕ × ℕ := (m.length, (m.headD []).length)

/-- Number of elements of a 2-D tensor (`numel`). -/
def matNumel (m : Mat) : ℕ := (m.map List.length).sum

/-- Sum of all elements (`torch.Tensor.sum`). -/
def matSum (m : Mat) : ℚ := (m.map List.sum).sum

/-- Mean of all elements (`torch.Tensor.mean`). -/
def matMean (m : Mat) : ℚ := matSum m / matNumel m

/-- Elementwise squared difference `(input - target) ** 2`. -/
def matSqDiff (a b : Mat) : Mat :=
  List.zipWith (List.zipWith fun x y => (x - y) ^ 2) a b

/-- A value returned by a torch-style loss: either a 0-D scalar (after a
`mean`/`sum` reduction) or an unreduced elementwise tensor. -/
inductive TorchVal : Type where
  | scalar : ℚ → TorchVal
  | tensor : Mat → TorchVal
deriving DecidableEq

def shapeErrMsg : String := "Input and target must have the same shape"

def meanReduction : String := "mean"

def sumReduction : String := "sum"

/-- Embedding of `calculate_weighted_mse.forward` (src/utilities.py lines
172-192).  The `reduction` string is the value fixed by `__init__`; the
method raises `ValueError` when the shapes differ, otherwise reduces the
elementwise squared error according to `reduction`. -/
def calculate_weighted_mse_forward (reduction : String) (input target : Mat) :
    Except String TorchVal :=
  if matShape input ≠ matShape target then
    Except.error shapeErrMsg
  else if reduction = meanReduction then
    Except.ok (TorchVal.scalar (matMean (matSqDiff input target)))
  else if reduction = sumReduction then
    Except.ok (TorchVal.scalar (matSum (matSqDiff input target)))
  else
    Except.ok (TorchVal.tensor (matSqDiff input target))

/-- The squared branch of `calculate_huber_loss.forward`
(src/utilities.py line 217): `0.5 * error ** 2`, written `1 / 2 * error ^ 2`.
Stated over an arbitrary field so the same definition can be read at ℚ
(executable) and at ℝ (for the derivative statement). -/
def huberSquaredBranch {K : Type} [Field K] (error : K) : K := 1 / 2 * error ^ 2

/-- The linear branch of `calculate_huber_loss.forward`
(src/utilities.py line 218): `delta * (error - 0.5 * delta)`. -/
def huberLinearBranch {K : Type} [Field K] (delta error : K) : K :=
  delta * (error - 1 / 2 * delta)

/-- One element of the Huber loss (src/utilities.py lines 213-218):
`error = |y_true - y_pred|`, then `torch.where(error <= delta, squared, linear)`. -/
def huberElement (delta diff : ℚ) : ℚ :=
  if |diff| ≤ delta then huberSquaredBranch |diff| else huberLinearBranch delta |diff|

/-- Embedding of `calculate_huber_loss.forward` (src/utilities.py lines
211-220): elementwise Huber loss of `y_true - y_pred`, reduced by `mean`. -/
def calculate_huber_loss_forward (delta : ℚ) (y_pred y_true : Mat) : ℚ :=
  matMean (List.zipWith (List.zipWith fun p t => huberElement delta (t - p)) y_pred y_true)

/-- Comparison against the running best validation loss
(`val_loss < best_val_loss` / `min_val_loss < best_val_loss`); `none`
models the initial `float("inf")`, which every rational is below. -/
def ltBest (v : ℚ) : Option ℚ → Bool
  | none => true
  | some b => decide (v < b)

/-- State tracked by the grid-search driver (src/manual_optimization.py
lines 35-75): the best validation loss seen so far, the model of the best
combination (`best_model`), and the model of the most recently trained
combination (`trained_model`). -/
structure GridState (M : Type) where
  best_val_loss : Option ℚ
  best_model : Option M
  trained_model : Option M
deriving DecidableEq

/-- One iteration of the innermost grid-search loop body
(src/manual_optimization.py lines 57-75): a run produces a minimum
validation loss `run.1` and a trained model `run.2`; the best-so-far
bookkeeping updates on strict improvement, and `trained_model` is always
rebound to the model just trained. -/
def gridStep {M : Type} (st : GridState M) (run : ℚ × M) : GridState M :=
  if ltBest run.1 st.best_val_loss then
    { best_val_loss := some run.1, best_model := some run.2, trained_model := some run.2 }
  else
    { best_val_loss := st.best_val_loss, best_model := st.best_model,
      trained_model := some run.2 }

/-- The full nested enumeration of the grid search, flattened into the list
of its (min validation loss, trained model) results in iteration order. -/
def grid_search {M : Type} (runs : List (ℚ × M)) : GridState M :=
  runs.foldl gridStep ⟨none, none, none⟩

/-- The parameters the driver persists at the end
(src/manual_optimization.py line 79): `torch.save(trained_model.state_dict(), ...)`
writes the model bound to `trained_model`, i.e. the model of the LAST
combination trained, not `best_model`. -/
def saved_model {M : Type} (runs : List (ℚ × M)) : Option M :=
  (grid_search runs).trained_model

/-- Per-epoch training state of `train_regression_model`
(src/utilities.py lines 34-36): running best validation loss (`none`
models the initial `float("inf")`), the early-stopping counter, the
`best_model_state` binding, and the model's current parameters
(abstracted to an arbitrary type `P`).  Crucially, line 113 stores
`model.state_dict()` WITHOUT a deep copy: the stored dict holds tensors
that alias the live parameters, which `optimizer.step()` mutates in
place.  The binding therefore never holds an independent value — whenever
dereferenced it yields the model's current parameters — so it is modelled
as a Bool recording only whether it is bound (`False` = the initial
`None` of line 36). -/
structure ESState (P : Type) where
  best_val_loss : Option ℚ
  early_counter : ℕ
  best_model_state : Bool
  model : P

/-- One epoch of `train_regression_model` as far as the early-stopping
bookkeeping is concerned (src/utilities.py lines 40-119): the epoch's
training updates the parameters to `p`, validation produces loss `v`, then
lines 110-119 run.  Returns the new state and whether the `break` at line
119 fired.  On improvement (`val_loss < best_val_loss`) the counter resets
and `best_model_state` is (re)bound; otherwise the counter increments and,
when it reaches `patience`, line 118 runs
`model.load_state_dict(best_model_state)` and the loop breaks — but since
the stored dict aliases the live parameters, that load copies the model's
current values onto themselves and leaves the model holding `p`, the
parameters of the breaking epoch. -/
def epochStep {P : Type} (patience : ℕ) (p : P) (v : ℚ) (s : ESState P) :
    ESState P × Bool :=
  if ltBest v s.best_val_loss then
    (⟨some v, 0, true, p⟩, false)
  else if patience ≤ s.early_counter + 1 then
    (⟨s.best_val_loss, s.early_counter + 1, s.best_model_state, p⟩, true)
  else
    (⟨s.best_val_loss, s.early_counter + 1, s.best_model_state, p⟩, false)

/-- The epoch loop `for epoch in range(num_epochs)` of
`train_regression_model`, starting at epoch `e` with `n` epochs of budget
left.  `params e` is the value of the model parameters produced by the
optimizer steps of epoch `e`; `vloss e` is that epoch's mean validation
loss.  Returns the final state together with the index one past the last
executed epoch. -/
def epochLoop {P : Type} (patience : ℕ) (params : ℕ → P) (vloss : ℕ → ℚ) :
    ℕ → ℕ → ESState P → ESState P × ℕ
  | e, 0, s => (s, e)
  | e, n + 1, s =>
    let r := epochStep patience (params e) (vloss e) s
    if r.2 then (r.1, e + 1) else epochLoop patience params vloss (e + 1) n r.1

/-- Embedding of `train_regression_model` (src/utilities.py lines 27-121)
at the epoch level: the batch-level work of each epoch is summarised by
`params` (parameters after the epoch's optimizer steps) and `vloss` (the
epoch's validation loss); the early-stopping state machine is modelled
exactly.  The `.model` field of the result is the model returned at line
121; the second component counts the executed epochs. -/
def train_regression_model {P : Type} (patience num_epochs : ℕ) (params : ℕ → P)
    (vloss : ℕ → ℚ) (init : P) : ESState P × ℕ :=
  epochLoop patience params vloss 0 num_epochs ⟨none, 0, false, init⟩

/-- Running minimum of the validation losses over epochs `0..e`; this is
the value held by `best_val_loss` after epoch `e`. -/
def runningBest (vloss : ℕ → ℚ) : ℕ → ℚ
  | 0 => vloss 0
  | e + 1 => min (runningBest vloss e) (vloss (e + 1))

/-- The value of the early-stopping counter after epoch `e`, as a pure
function of the validation losses: epoch 0 always improves on the initial
infinity; a later epoch resets the counter exactly when it strictly
improves on the running best. -/
def counterAfter (vloss : ℕ → ℚ) : ℕ → ℕ
  | 0 => 0
  | e + 1 => if vloss (e + 1) < runningBest vloss e then 0 else counterAfter vloss e + 1

/-- The type of the `criterion` argument of `train_regression_model`: a
loss callable applied to (outputs, targets), which may raise. -/
def Criterion : Type := Mat → Mat → Except String ℚ

def assertMsg : String := "AssertionError"

/-- Training-batch loss path of `train_regression_model`
(src/utilities.py lines 47-49): the `assert outputs.shape == targets.shape`
runs BEFORE the criterion, so a mismatched training batch fails hard
before any loss is computed. -/
def train_batch_loss (criterion : Criterion) (outputs targets : Mat) :
    Except String ℚ :=
  if matShape outputs = matShape targets then criterion outputs targets
  else Except.error assertMsg

/-- Validation-batch loss path of `train_regression_model`
(src/utilities.py lines 68-69): the criterion is applied directly; there
is no shape assertion in this branch. -/
def val_batch_loss (criterion : Criterion) (outputsv targets : Mat) :
    Except String ℚ :=
  criterion outputsv targets

/-- The training-loss accumulation of one epoch (src/utilities.py lines
42-57): `train_loss += loss.item() * inputs.size(0)` over the batches,
then division by `len(train_loader.dataset)`.  Each element of
`batch_losses` is the (per-batch mean loss, batch size) pair of one batch. -/
def epoch_train_loss (batch_losses : List (ℚ × ℕ)) (dataset_size : ℕ) : ℚ :=
  (batch_losses.foldl (fun acc bl => acc + bl.1 * (bl.2 : ℚ)) 0) / (dataset_size : ℚ)

/-- Per-column mean squared error
(`sklearn.metrics.mean_squared_error(target_col, pred_col)`): the mean of
the squared residuals. -/
def colMSE (target_col pred_col : List ℚ) : ℚ :=
  ((List.zipWith (fun t p => (t - p) ^ 2) target_col pred_col).sum)
    / (target_col.length : ℚ)

/-- Column `j` of a 2-D tensor (`m[:, j]`). -/
def matCol (m : Mat) (j : ℕ) : List ℚ := m.map fun row => row.getD j 0

/-- The per-column MSE values appended to `mse_values` during one epoch's
validation loop (src/utilities.py lines 66-81): for each validation batch
`(outputsv, targets)` and each column `col` in `range(outputsv.shape[1])`,
the MSE of that column. -/
def epochMSEList (val_batches : List (Mat × Mat)) : List ℚ :=
  (val_batches.map fun ot =>
      (List.range (matShape ot.1).2).map fun j =>
        colMSE (matCol ot.2 j) (matCol ot.1 j)).foldl (· ++ ·) []

/-- The contents of `mse_values` when epoch `e` reports: the list is
initialized once BEFORE the epoch loop (src/utilities.py line 38) and only
ever appended to, so at epoch `e` it holds the values of all epochs
`0..e`, not only epoch `e`'s (unlike `r2_values`, which line 63 resets
each epoch). -/
def mseValuesThrough (epochs_val : List (List (Mat × Mat))) (e : ℕ) : List ℚ :=
  ((epochs_val.take (e + 1)).map epochMSEList).foldl (· ++ ·) []

/-- `mean_mse = np.mean(mse_values)` as reported at epoch `e`
(src/utilities.py line 86). -/
def reportedMeanMSE (epochs_val : List (List (Mat × Mat))) (e : ℕ) : ℚ :=
  (mseValuesThrough epochs_val e).sum / ((mseValuesThrough epochs_val e).length : ℚ)

/-- Modelled from the claim's words, for comparison with the code: the
mean of the per-column MSE values computed from epoch `e`'s validation
data alone. -/
def perEpochMeanMSE (epochs_val : List (List (Mat × Mat))) (e : ℕ) : ℚ :=
  (epochMSEList (epochs_val.getD e [])).sum
    / ((epochMSEList (epochs_val.getD e [])).length : ℚ)

/-- Entry `(r, j)` of a 2-D array, with 0 outside the bounds. -/
def matEntry (m : Mat) (r j : ℕ) : ℚ := (m.getD r []).getD j 0

/-- `num_columns = data.shape[1]` (src/utilities.py line 161). -/
def numColumns (data : Mat) : ℕ := (data.headD []).length

/-- The column assignment `unscaled_data[:, i] = (data[:, i] * std) + mean`
(src/utilities.py line 168): row by row, entry `i` of the accumulator row
is overwritten with the scaled entry of the ORIGINAL data row. -/
def setColScaled (i : ℕ) (mean std : ℚ) : Mat → Mat → Mat
  | drow :: dt, arow :: rt =>
    arow.set i (drow.getD i 0 * std + mean) :: setColScaled i mean std dt rt
  | _, _ => []

/-- The loop `for i, column in enumerate(column_names)` of `unscale`
(src/utilities.py lines 162-168), acting on the accumulator `acc`
(initially the copy of `data`).  When the index reaches `num_columns` the
loop warns and breaks; the Bool of the result records that warning print.
Column names are drawn from an arbitrary key type `α` and `scaling_info`
maps a name to its `(mean, std)` pair. -/
def unscaleLoop {α : Type} (data : Mat) (scaling_info : α → ℚ × ℚ) :
    ℕ → List α → Mat → Mat × Bool
  | _, [], acc => (acc, false)
  | i, column :: rest, acc =>
    if numColumns data ≤ i then (acc, true)
    else
      unscaleLoop data scaling_info (i + 1) rest
        (setColScaled i (scaling_info column).1 (scaling_info column).2 data acc)

/-- Embedding of `unscale` (src/utilities.py lines 159-169): start from a
copy of `data` and process the enumerated column names.  The first
component is the returned `unscaled_data`; the second records whether the
out-of-bounds warning was printed. -/
def unscale {α : Type} (data : Mat) (column_names : List α)
    (scaling_info : α → ℚ × ℚ) : Mat × Bool :=
  unscaleLoop data scaling_info 0 column_names data

/-- Concrete validation-loss sequence used to witness the early-stopping
theorem: best at epoch 1 (loss 1), loss 2 everywhere else. -/
def esWitnessLoss1 : ℕ → ℚ := fun e => if e = 1 then 1 else 2

/-- Concrete validation-loss sequence used to witness the
natural-completion theorem: strictly improving, so patience never fires. -/
def esWitnessLoss2 : ℕ → ℚ := fun e => if e = 0 then 2 else 1

/-- C1: counterexample-style evidence of the code bug.  With two
combinations, where the FIRST one attains the globally minimal validation
loss (1 < 2), the snapshot written by `torch.save` is the second (last)
combination's model, which differs from the tracked best model.  The claim
(persist the globally best model) is the documented intent — the source
comments say `best_model = trained_model  # Save the best model` — but the
code saves `trained_model` instead of `best_model`. -/
theorem grid_saves_last_not_best :
    saved_model [((1 : ℚ), 0), ((2 : ℚ), 1)] = some 1
    ∧ (grid_search [((1 : ℚ), 0), ((2 : ℚ), 1)]).best_model = some 0
    ∧ saved_model [((1 : ℚ), 0), ((2 : ℚ), 1)]
        ≠ (grid_search [((1 : ℚ), 0), ((2 : ℚ), 1)]).best_model := by
  refine ⟨rfl, rfl, ?_⟩
  decide

/-- C6: `calculate_weighted_mse.forward` raises exactly when the shapes
differ, and otherwise reduces the elementwise squared error according to
the reduction mode fixed at construction: mean of the squared errors for
"mean", their sum for "sum", and the unreduced elementwise tensor for any
other mode. -/
theorem wmse_forward_spec (reduction : String) (input target : Mat) :
    ((∃ msg, calculate_weighted_mse_forward reduction input target = Except.error msg)
        ↔ matShape input ≠ matShape target)
    ∧ (matShape input = matShape target →
        (reduction = meanReduction →
          calculate_weighted_mse_forward reduction input target
            = Except.ok (TorchVal.scalar (matMean (matSqDiff input target))))
        ∧ (reduction = sumReduction →
          calculate_weighted_mse_forward reduction input target
            = Except.ok (TorchVal.scalar (matSum (matSqDiff input target))))
        ∧ (reduction ≠ meanReduction → reduction ≠ sumReduction →
          calculate_weighted_mse_forward reduction input target
            = Except.ok (TorchVal.tensor (matSqDiff input target)))) := by
  constructor
  · constructor
    · rintro ⟨msg, hmsg⟩
      by_contra hsh
      unfold calculate_weighted_mse_forward at hmsg
      rw [if_neg (fun hne => hne hsh)] at hmsg
      by_cases hm : reduction = meanReduction
      · rw [if_pos hm] at hmsg
        exact Except.noConfusion hmsg
      · rw [if_neg hm] at hmsg
        by_cases hs : reduction = sumReduction
        · rw [if_pos hs] at hmsg
          exact Except.noConfusion hmsg
        · rw [if_neg hs] at hmsg
          exact Except.noConfusion hmsg
    · intro hsh
      exact ⟨shapeErrMsg, by unfold calculate_weighted_mse_forward; rw [if_pos hsh]⟩
  · intro hsh
    have hif : ∀ x : Except String TorchVal,
        (if matShape input ≠ matShape target then Except.error shapeErrMsg else x) = x :=
      fun x => if_neg (fun hne => hne hsh)
    refine ⟨?_, ?_, ?_⟩
    · intro hm
      unfold calculate_weighted_mse_forward
      rw [hif, if_pos hm]
    · intro hs
      by_cases hm : reduction = meanReduction
      · rw [hm] at hs
        exact absurd hs (by decide)
      · unfold calculate_weighted_mse_forward
        rw [hif, if_neg hm, if_pos hs]
    · intro hm hs
      unfold calculate_weighted_mse_forward
      rw [hif, if_neg hm, if_neg hs]

/-- C6 witness: on the concrete equal-shaped pair `[[1, 2]]`, `[[0, 2]]`
with reduction "mean", forward returns the scalar mean squared error 1/2;
and on the mismatched pair `[[1, 2]]`, `[[0]]` it raises. -/
theorem wmse_forward_spec_witness :
    calculate_weighted_mse_forward meanReduction [[(1 : ℚ), 2]] [[(0 : ℚ), 2]]
      = Except.ok (TorchVal.scalar (1 / 2))
    ∧ (∃ msg, calculate_weighted_mse_forward meanReduction [[(1 : ℚ), 2]] [[(0 : ℚ)]]
        = Except.error msg) := by
  constructor
  · have h := ((wmse_forward_spec meanReduction [[(1 : ℚ), 2]] [[(0 : ℚ), 2]]).2
      (by decide)).1 rfl
    rw [h]
    have hv : matMean (matSqDiff [[(1 : ℚ), 2]] [[(0 : ℚ), 2]]) = 1 / 2 := by
      norm_num [matMean, matSum, matNumel, matSqDiff]
    rw [hv]
  · exact (wmse_forward_spec meanReduction [[(1 : ℚ), 2]] [[(0 : ℚ)]]).1.2 (by decide)

/-- C7: the two branches of the Huber loss agree in value and in derivative
at the switch point `error = delta`, for every positive threshold: the
squared branch `1/2 * error ^ 2` and the linear branch
`delta * (error - 1/2 * delta)` are tangent at `error = delta`. -/
theorem huber_branches_match (delta : ℝ) (hdelta : 0 < delta) :
    huberSquaredBranch delta = huberLinearBranch delta delta
    ∧ deriv (huberSquaredBranch (K := ℝ)) delta = deriv (huberLinearBranch delta) delta := by
  constructor
  · unfold huberSquaredBranch huberLinearBranch
    ring
  · have h1 : HasDerivAt (huberSquaredBranch (K := ℝ)) delta delta := by
      have h := (hasDerivAt_pow 2 delta).const_mul ((1 : ℝ) / 2)
      norm_num at h
      have he : (1 : ℝ) / 2 * (2 * delta) = delta := by ring
      rw [he] at h
      exact h
    have h2 : HasDerivAt (huberLinearBranch delta) delta delta := by
      have h := ((hasDerivAt_id delta).sub_const (1 / 2 * delta)).const_mul delta
      rw [mul_one] at h
      exact h
    rw [h1.deriv, h2.deriv]

/-- C7 witness: instantiation at the default threshold `delta = 1`. -/
theorem huber_branches_match_witness :
    (0 : ℝ) < 1
    ∧ (huberSquaredBranch (1 : ℝ) = huberLinearBranch 1 1
        ∧ deriv (huberSquaredBranch (K := ℝ)) 1 = deriv (huberLinearBranch 1) 1) :=
  ⟨by norm_num, huber_branches_match 1 (by norm_num)⟩

/-- Unfolding of one epoch of the loop when budget remains. -/
theorem epochLoop_succ {P : Type} (patience : ℕ) (params : ℕ → P) (vloss : ℕ → ℚ)
    (e n : ℕ) (s : ESState P) :
    epochLoop patience params vloss e (n + 1) s
      = if (epochStep patience (params e) (vloss e) s).2
          then ((epochStep patience (params e) (vloss e) s).1, e + 1)
          else epochLoop patience params vloss (e + 1) n
                 (epochStep patience (params e) (vloss e) s).1 := rfl

/-- An improving epoch resets the counter, rebinds `best_model_state` and
continues. -/
theorem epochStep_improve {P : Type} (patience : ℕ) (p : P) (v : ℚ) (s : ESState P)
    (h : ltBest v s.best_val_loss = true) :
    epochStep patience p v s = (⟨some v, 0, true, p⟩, false) := by
  unfold epochStep
  rw [if_pos h]

/-- A non-improving epoch below the patience threshold only increments the
counter. -/
theorem epochStep_noimp_continue {P : Type} (patience : ℕ) (p : P) (v : ℚ)
    (s : ESState P) (h : ltBest v s.best_val_loss = false)
    (hc : s.early_counter + 1 < patience) :
    epochStep patience p v s
      = (⟨s.best_val_loss, s.early_counter + 1, s.best_model_state, p⟩, false) := by
  unfold epochStep
  rw [if_neg (by simp [h]), if_neg (by omega)]

/-- A non-improving epoch that reaches the patience threshold breaks; the
`load_state_dict` restore, acting through the alias, leaves the model with
the breaking epoch's parameters `p`. -/
theorem epochStep_noimp_stop {P : Type} (patience : ℕ) (p : P) (v : ℚ)
    (s : ESState P) (h : ltBest v s.best_val_loss = false)
    (hc : patience ≤ s.early_counter + 1) :
    epochStep patience p v s
      = (⟨s.best_val_loss, s.early_counter + 1, s.best_model_state, p⟩, true) := by
  unfold epochStep
  rw [if_neg (by simp [h]), if_pos hc]

/-- Loop equation for an improving epoch. -/
theorem epochLoop_continue_improve {P : Type} (patience : ℕ) (params : ℕ → P)
    (vloss : ℕ → ℚ) (e n : ℕ) (s : ESState P)
    (h : ltBest (vloss e) s.best_val_loss = true) :
    epochLoop patience params vloss e (n + 1) s
      = epochLoop patience params vloss (e + 1) n
          ⟨some (vloss e), 0, true, params e⟩ := by
  rw [epochLoop_succ, epochStep_improve patience (params e) (vloss e) s h]
  rfl

/-- Loop equation for a non-improving epoch below the threshold. -/
theorem epochLoop_continue_noimp {P : Type} (patience : ℕ) (params : ℕ → P)
    (vloss : ℕ → ℚ) (e n : ℕ) (s : ESState P)
    (h : ltBest (vloss e) s.best_val_loss = false)
    (hc : s.early_counter + 1 < patience) :
    epochLoop patience params vloss e (n + 1) s
      = epochLoop patience params vloss (e + 1) n
          ⟨s.best_val_loss, s.early_counter + 1, s.best_model_state, params e⟩ := by
  rw [epochLoop_succ, epochStep_noimp_continue patience (params e) (vloss e) s h hc]
  rfl

/-- Loop equation for the epoch on which early stopping fires: the no-op
restore leaves the model with that epoch's parameters. -/
theorem epochLoop_stop {P : Type} (patience : ℕ) (params : ℕ → P)
    (vloss : ℕ → ℚ) (e n : ℕ) (s : ESState P)
    (h : ltBest (vloss e) s.best_val_loss = false)
    (hc : patience ≤ s.early_counter + 1) :
    epochLoop patience params vloss e (n + 1) s
      = (⟨s.best_val_loss, s.early_counter + 1, s.best_model_state, params e⟩,
          e + 1) := by
  rw [epochLoop_succ, epochStep_noimp_stop patience (params e) (vloss e) s h hc]
  rfl

/-- A value strictly below every loss up to epoch `e` is strictly below the
running best at `e`. -/
theorem lt_runningBest (vloss : ℕ → ℚ) (c : ℚ) :
    ∀ e, (∀ j, j ≤ e → c < vloss j) → c < runningBest vloss e := by
  intro e
  induction e with
  | zero => intro h; exact h 0 (Nat.le_refl 0)
  | succ e ih =>
    intro h
    simp only [runningBest]
    exact lt_min (ih fun j hj => h j (Nat.le_succ_of_le hj)) (h (e + 1) (Nat.le_refl _))

/-- Phase-1 invariant of the epoch loop: as long as the counter stays below
the patience threshold through epoch `b`, the loop reaches epoch `b + 1`
carrying the running best loss, the counter value `counterAfter b`, a
bound `best_model_state`, and the parameters of epoch `b`. -/
theorem epochLoop_phase1 {P : Type} (patience : ℕ) (params : ℕ → P) (vloss : ℕ → ℚ)
    (init : P) :
    ∀ b, (∀ e, e ≤ b → counterAfter vloss e < patience) →
      ∀ m,
        epochLoop patience params vloss 0 (b + 1 + m) ⟨none, 0, false, init⟩
          = epochLoop patience params vloss (b + 1) m
              ⟨some (runningBest vloss b), counterAfter vloss b, true, params b⟩ := by
  intro b
  induction b with
  | zero =>
    intro _ m
    have h0 : (0 : ℕ) + 1 + m = m + 1 := by omega
    rw [h0, epochLoop_continue_improve patience params vloss 0 m _ (by rfl)]
    rfl
  | succ b ih =>
    intro hcnt m
    have heq := ih (fun e he => hcnt e (Nat.le_succ_of_le he)) (m + 1)
    have harith : b + 1 + 1 + m = b + 1 + (m + 1) := by omega
    by_cases himp : vloss (b + 1) < runningBest vloss b
    · rw [harith, heq, epochLoop_continue_improve patience params vloss (b + 1) m _
        (by show ltBest (vloss (b + 1)) (some (runningBest vloss b)) = true
            simp only [ltBest, decide_eq_true_eq]
            exact himp)]
      have h1 : runningBest vloss (b + 1) = vloss (b + 1) := by
        simp only [runningBest]
        exact min_eq_right (le_of_lt himp)
      have h2 : counterAfter vloss (b + 1) = 0 := by
        simp only [counterAfter]
        rw [if_pos himp]
      rw [h1, h2]
    · have h1 : runningBest vloss (b + 1) = runningBest vloss b := by
        simp only [runningBest]
        exact min_eq_left (not_lt.mp himp)
      have h2 : counterAfter vloss (b + 1) = counterAfter vloss b + 1 := by
        simp only [counterAfter]
        rw [if_neg himp]
      rw [harith, heq, epochLoop_continue_noimp patience params vloss (b + 1) m _
        (by show ltBest (vloss (b + 1)) (some (runningBest vloss b)) = false
            simp only [ltBest, decide_eq_false_iff_not]
            exact himp)
        (by show counterAfter vloss b + 1 < patience
            have := hcnt (b + 1) (Nat.le_refl _)
            omega)]
      rw [h1, h2]

/-- Phase-2 of the early-stopping argument: once the state holds the best
loss of epoch `b`, a bound `best_model_state`, and counter
`patience - 1 - d`, and each later epoch fails to improve, the loop
breaks at exactly epoch `b + patience`; the no-op restore leaves the
model with THAT epoch's parameters, not epoch `b`'s. -/
theorem epochLoop_phase2 {P : Type} (patience : ℕ) (params : ℕ → P) (vloss : ℕ → ℚ)
    (b : ℕ) (hworse : ∀ k, 1 ≤ k → k ≤ patience → vloss b ≤ vloss (b + k)) :
    ∀ d, d < patience → ∀ (q : P) (m : ℕ), d < m →
      epochLoop patience params vloss (b + (patience - d)) m
          ⟨some (vloss b), patience - 1 - d, true, q⟩
        = (⟨some (vloss b), patience, true, params (b + patience)⟩,
            b + patience + 1) := by
  intro d
  induction d with
  | zero =>
    intro hd q m hm
    obtain ⟨m0, rfl⟩ : ∃ m0, m = m0 + 1 := ⟨m - 1, by omega⟩
    rw [epochLoop_stop patience params vloss (b + (patience - 0)) m0 _
      (by show ltBest (vloss (b + (patience - 0))) (some (vloss b)) = false
          simp only [ltBest, decide_eq_false_iff_not]
          exact not_lt.mpr (hworse (patience - 0) (by omega) (by omega)))
      (by show patience ≤ patience - 1 - 0 + 1
          omega)]
    have hcc : patience - 1 - 0 + 1 = patience := by omega
    have hpp : b + (patience - 0) = b + patience := by omega
    rw [hcc, hpp]
  | succ d ih =>
    intro hd q m hm
    obtain ⟨m0, rfl⟩ : ∃ m0, m = m0 + 1 := ⟨m - 1, by omega⟩
    rw [epochLoop_continue_noimp patience params vloss (b + (patience - (d + 1))) m0 _
      (by show ltBest (vloss (b + (patience - (d + 1)))) (some (vloss b)) = false
          simp only [ltBest, decide_eq_false_iff_not]
          exact not_lt.mpr (hworse (patience - (d + 1)) (by omega) (by omega)))
      (by show patience - 1 - (d + 1) + 1 < patience
          omega)]
    have hcc : patience - 1 - (d + 1) + 1 = patience - 1 - d := by omega
    have hee : b + (patience - (d + 1)) + 1 = b + (patience - d) := by omega
    rw [hcc, hee]
    exact ih (by omega) (params (b + (patience - (d + 1)))) m0 (by omega)

/-- C2: evidence of the code bug.  The termination half of the claim is
right: if epoch `b` strictly improves on every earlier epoch, the next
`patience` epochs all fail to improve on it, and the counter never reached
the threshold before `b`, then the loop breaks inside epoch `b + patience`
(0-based) having executed exactly `b + patience + 1` epochs.  But the
restore half fails on the code: `best_model_state = model.state_dict()`
(line 113) stores tensors aliasing the live parameters, which the
optimizer mutates in place, so the `load_state_dict` at line 118 is a
no-op and the model returned holds the parameters of epoch
`b + patience` — NOT the snapshot of the best epoch `b` that the claim
(and the spec) call for. -/
theorem early_stopping_restore_noop {P : Type} (patience num_epochs b : ℕ)
    (params : ℕ → P) (vloss : ℕ → ℚ) (init : P)
    (hpat : 1 ≤ patience)
    (hbest : ∀ j, j < b → vloss b < vloss j)
    (hworse : ∀ k, 1 ≤ k → k ≤ patience → vloss b ≤ vloss (b + k))
    (hquiet : ∀ e, e < b → counterAfter vloss e < patience)
    (hlen : b + patience < num_epochs) :
    (train_regression_model patience num_epochs params vloss init).2 = b + patience + 1
    ∧ (train_regression_model patience num_epochs params vloss init).1.model
        = params (b + patience) := by
  have hca : counterAfter vloss b = 0 := by
    cases b with
    | zero => rfl
    | succ e =>
      simp only [counterAfter]
      rw [if_pos (lt_runningBest vloss (vloss (e + 1)) e (fun j hj => hbest j (by omega)))]
  have hrb : runningBest vloss b = vloss b := by
    cases b with
    | zero => rfl
    | succ e =>
      simp only [runningBest]
      exact min_eq_right
        (le_of_lt (lt_runningBest vloss (vloss (e + 1)) e (fun j hj => hbest j (by omega))))
  have hcnt : ∀ e, e ≤ b → counterAfter vloss e < patience := by
    intro e he
    rcases Nat.lt_or_ge e b with h | h
    · exact hquiet e h
    · have heb : e = b := by omega
      rw [heb, hca]
      omega
  have heq :=
    epochLoop_phase1 patience params vloss init b hcnt (num_epochs - (b + 1))
  have hfuel : b + 1 + (num_epochs - (b + 1)) = num_epochs := by omega
  rw [hfuel] at heq
  have h2 := epochLoop_phase2 patience params vloss b hworse (patience - 1) (by omega)
    (params b) (num_epochs - (b + 1)) (by omega)
  have e1 : b + (patience - (patience - 1)) = b + 1 := by omega
  have e2 : patience - 1 - (patience - 1) = 0 := by omega
  rw [e1, e2] at h2
  unfold train_regression_model
  rw [heq, hca, hrb, h2]
  exact ⟨rfl, rfl⟩

/-- C2 witness, at the failing input: patience 2, budget 10 epochs,
parameters `params e = e`, best at epoch 1 with losses 2, 1, 2, 2, ...;
the loop stops after executing epochs 0-3 exactly as the claim says, but
the model returned carries epoch 3's parameters (3), not the best epoch's
snapshot (params 1 = 1) that the claim states. -/
theorem early_stopping_restore_noop_witness :
    ((1 ≤ 2)
      ∧ (∀ j, j < 1 → esWitnessLoss1 1 < esWitnessLoss1 j)
      ∧ (∀ k, 1 ≤ k → k ≤ 2 → esWitnessLoss1 1 ≤ esWitnessLoss1 (1 + k))
      ∧ (∀ e, e < 1 → counterAfter esWitnessLoss1 e < 2)
      ∧ 1 + 2 < 10)
    ∧ ((train_regression_model 2 10 (fun e => e) esWitnessLoss1 99).2 = 1 + 2 + 1
       ∧ (train_regression_model 2 10 (fun e => e) esWitnessLoss1 99).1.model = 1 + 2)
    ∧ (1 + 2 : ℕ) ≠ 1 := by
  refine ⟨⟨by omega, by decide, ?_, by decide, by omega⟩, ?_, by omega⟩
  · intro k h1 h2
    interval_cases k <;> decide
  · exact early_stopping_restore_noop 2 10 1 (fun e => e) esWitnessLoss1 99 (by omega)
      (by decide) (by intro k h1 h2; interval_cases k <;> decide) (by decide) (by omega)

/-- C4: when the counter never reaches the patience threshold, the loop
runs all `num_epochs` epochs and the snapshot is NOT restored: the model
returned is the one produced by the optimizer in the final epoch. -/
theorem full_run_no_restore {P : Type} (patience num_epochs : ℕ) (params : ℕ → P)
    (vloss : ℕ → ℚ) (init : P)
    (hne : 1 ≤ num_epochs)
    (hquiet : ∀ e, e < num_epochs → counterAfter vloss e < patience) :
    (train_regression_model patience num_epochs params vloss init).2 = num_epochs
    ∧ (train_regression_model patience num_epochs params vloss init).1.model
        = params (num_epochs - 1) := by
  have heq := epochLoop_phase1 patience params vloss init (num_epochs - 1)
    (fun e he => hquiet e (by omega)) 0
  have hfuel : num_epochs - 1 + 1 + 0 = num_epochs := by omega
  rw [hfuel] at heq
  unfold train_regression_model
  rw [heq]
  exact ⟨rfl, rfl⟩

/-- C4 witness: patience 3, 2 epochs, strictly improving losses; both
epochs run and the returned model is the last epoch's parameters. -/
theorem full_run_no_restore_witness :
    ((1 ≤ 2) ∧ (∀ e, e < 2 → counterAfter esWitnessLoss2 e < 3))
    ∧ ((train_regression_model 3 2 (fun e => e) esWitnessLoss2 7).2 = 2
       ∧ (train_regression_model 3 2 (fun e => e) esWitnessLoss2 7).1.model = 2 - 1) := by
  refine ⟨⟨by omega, by decide⟩, ?_⟩
  exact full_run_no_restore 3 2 (fun e => e) esWitnessLoss2 7 (by omega) (by decide)

/-- C5 counterexample: the validation branch has no shape check.  With a
criterion that returns a loss value regardless of shapes (the behaviour of
the library's broadcasting losses, e.g. `nn.SmoothL1Loss` used by the
grid-search driver, on broadcastable mismatched shapes), a validation
batch whose output shape (1, 2) differs from its target shape (1, 1)
produces a loss value instead of failing hard, so the claim as stated is
false for validation batches. -/
theorem val_batch_no_shape_check_cex :
    matShape [[(1 : ℚ), 2]] ≠ matShape [[(1 : ℚ)]]
    ∧ val_batch_loss (fun _ _ => Except.ok 0) [[(1 : ℚ), 2]] [[(1 : ℚ)]]
        = Except.ok 0 :=
  ⟨by decide, rfl⟩

/-- C5 (amended): the shape assertion protects exactly the training
branch: a mismatched training batch fails hard before the criterion is
invoked, a matching one defers to the criterion, and the validation
branch always applies the criterion directly with no check of its own. -/
theorem shape_check_training_only (criterion : Criterion) (outputs targets : Mat) :
    (matShape outputs ≠ matShape targets →
        train_batch_loss criterion outputs targets = Except.error assertMsg)
    ∧ (matShape outputs = matShape targets →
        train_batch_loss criterion outputs targets = criterion outputs targets)
    ∧ val_batch_loss criterion outputs targets = criterion outputs targets := by
  refine ⟨?_, ?_, rfl⟩
  · intro h
    unfold train_batch_loss
    rw [if_neg h]
  · intro h
    unfold train_batch_loss
    rw [if_pos h]

/-- C5 witness: concrete instances of both training-branch behaviours. -/
theorem shape_check_training_only_witness :
    (matShape [[(1 : ℚ), 2]] ≠ matShape [[(1 : ℚ)]]
      ∧ train_batch_loss (fun _ _ => Except.ok 0) [[(1 : ℚ), 2]] [[(1 : ℚ)]]
          = Except.error assertMsg)
    ∧ (matShape [[(1 : ℚ), 2]] = matShape [[(0 : ℚ), 0]]
      ∧ train_batch_loss (fun _ _ => Except.ok 0) [[(1 : ℚ), 2]] [[(0 : ℚ), 0]]
          = Except.ok 0) := by
  refine ⟨⟨by decide, ?_⟩, ⟨by decide, ?_⟩⟩
  · exact (shape_check_training_only (fun _ _ => Except.ok 0)
      [[(1 : ℚ), 2]] [[(1 : ℚ)]]).1 (by decide)
  · exact (shape_check_training_only (fun _ _ => Except.ok 0)
      [[(1 : ℚ), 2]] [[(0 : ℚ), 0]]).2.1 (by decide)

/-- Closed form of the loss accumulator fold. -/
theorem foldl_weighted_sum (l : List (ℚ × ℕ)) :
    ∀ a : ℚ, l.foldl (fun acc bl => acc + bl.1 * (bl.2 : ℚ)) a
      = a + (l.map fun bl => bl.1 * (bl.2 : ℚ)).sum := by
  induction l with
  | nil => intro a; simp
  | cons x xs ih =>
    intro a
    simp only [List.foldl_cons, List.map_cons, List.sum_cons, ih]
    ring

/-- C9: when each batch's criterion value is the mean of that batch's
per-sample losses and the dataset size is the total number of samples (as
holds for a data loader that partitions the dataset), the accumulated
`train_loss` of an epoch equals the sum of all per-sample losses divided
by the dataset size, i.e. the mean per-sample loss of the epoch. -/
theorem train_loss_mean_per_sample (sample_losses : List (List ℚ))
    (hne : ∀ bs ∈ sample_losses, bs ≠ []) :
    epoch_train_loss (sample_losses.map fun bs => (bs.sum / (bs.length : ℚ), bs.length))
        ((sample_losses.map List.length).sum)
      = (sample_losses.map List.sum).sum / (((sample_losses.map List.length).sum : ℕ) : ℚ) := by
  unfold epoch_train_loss
  rw [foldl_weighted_sum, zero_add]
  congr 1
  rw [List.map_map]
  apply congrArg List.sum
  apply List.map_congr_left
  intro bs hbs
  simp only [Function.comp_apply]
  exact div_mul_cancel₀ bs.sum
    (Nat.cast_ne_zero.mpr (List.length_pos.mpr (hne bs hbs)).ne')

/-- C9 witness: two batches of per-sample losses [1, 2] and [3]; the
epoch's recorded loss is the mean per-sample loss (1+2+3)/3 = 2. -/
theorem train_loss_mean_per_sample_witness :
    (∀ bs ∈ [[(1 : ℚ), 2], [3]], bs ≠ [])
    ∧ epoch_train_loss ([[(1 : ℚ), 2], [3]].map fun bs => (bs.sum / (bs.length : ℚ), bs.length))
        (([[(1 : ℚ), 2], [3]].map List.length).sum)
      = ([[(1 : ℚ), 2], [3]].map List.sum).sum
          / ((([[(1 : ℚ), 2], [3]].map List.length).sum : ℕ) : ℚ) :=
  ⟨by decide, train_loss_mean_per_sample [[(1 : ℚ), 2], [3]] (by decide)⟩

/-- C3: evidence of the code bug.  Validation data with one column and one
single-sample batch per epoch: epoch 0 predicts 0 for target 0 (column MSE
0), epoch 1 predicts 1 for target 0 (column MSE 1).  Because `mse_values`
is initialized outside the epoch loop and never reset, the mean MSE
reported at epoch 1 is (0 + 1) / 2 = 1/2, whereas epoch 1's own validation
data gives mean MSE 1 — so the reported mean MSE does NOT depend only on
that epoch's validation predictions and targets, contrary to the claim
(and contrary to the per-epoch treatment of `r2_values`). -/
theorem mse_mean_depends_on_earlier_epochs :
    reportedMeanMSE [[([[(0 : ℚ)]], [[(0 : ℚ)]])], [([[(1 : ℚ)]], [[(0 : ℚ)]])]] 1 = 1 / 2
    ∧ perEpochMeanMSE [[([[(0 : ℚ)]], [[(0 : ℚ)]])], [([[(1 : ℚ)]], [[(0 : ℚ)]])]] 1 = 1
    ∧ reportedMeanMSE [[([[(0 : ℚ)]], [[(0 : ℚ)]])], [([[(1 : ℚ)]], [[(0 : ℚ)]])]] 1
        ≠ perEpochMeanMSE [[([[(0 : ℚ)]], [[(0 : ℚ)]])], [([[(1 : ℚ)]], [[(0 : ℚ)]])]] 1 := by
  have h1 : reportedMeanMSE [[([[(0 : ℚ)]], [[(0 : ℚ)]])], [([[(1 : ℚ)]], [[(0 : ℚ)]])]] 1
      = 1 / 2 := by
    norm_num [reportedMeanMSE, mseValuesThrough, epochMSEList, colMSE, matCol, matShape,
      List.range_succ]
  have h2 : perEpochMeanMSE [[([[(0 : ℚ)]], [[(0 : ℚ)]])], [([[(1 : ℚ)]], [[(0 : ℚ)]])]] 1
      = 1 := by
    norm_num [perEpochMeanMSE, epochMSEList, colMSE, matCol, matShape, List.range_succ]
  refine ⟨h1, h2, ?_⟩
  rw [h1, h2]
  norm_num

/-- Setting an index leaves every other index unchanged. -/
theorem getD_set_ne (v : ℚ) :
    ∀ (l : List ℚ) (i j : ℕ), i ≠ j → (l.set i v).getD j 0 = l.getD j 0 := by
  intro l
  induction l with
  | nil => intro i j _; rfl
  | cons x xs ih =>
    intro i j h
    cases i with
    | zero =>
      cases j with
      | zero => exact absurd rfl h
      | succ j => rfl
    | succ i =>
      cases j with
      | zero => rfl
      | succ j =>
        show (xs.set i v).getD j 0 = xs.getD j 0
        exact ih i j (fun he => h (by rw [he]))

/-- Setting an in-bounds index stores the value there. -/
theorem getD_set_self (v : ℚ) :
    ∀ (l : List ℚ) (i : ℕ), i < l.length → (l.set i v).getD i 0 = v := by
  intro l
  induction l with
  | nil => intro i h; exact absurd h (Nat.not_lt_zero i)
  | cons x xs ih =>
    intro i h
    cases i with
    | zero => rfl
    | succ i =>
      show (xs.set i v).getD i 0 = v
      exact ih i (by simpa using h)

/-- Length of the column write. -/
theorem setColScaled_length (i : ℕ) (mean std : ℚ) :
    ∀ d a : Mat, (setColScaled i mean std d a).length = min d.length a.length := by
  intro d
  induction d with
  | nil => intro a; simp [setColScaled]
  | cons drow dt ih =>
    intro a
    cases a with
    | nil => simp [setColScaled]
    | cons arow rt =>
      show (arow.set i _ :: setColScaled i mean std dt rt).length = _
      simp [ih, Nat.succ_min_succ]

/-- Row lengths are preserved by the column write. -/
theorem setColScaled_row_length (i : ℕ) (mean std : ℚ) :
    ∀ (d a : Mat) (r : ℕ), d.length = a.length →
      ((setColScaled i mean std d a).getD r []).length = (a.getD r []).length := by
  intro d
  induction d with
  | nil =>
    intro a r h
    cases a with
    | nil => rfl
    | cons arow rt => simp at h
  | cons drow dt ih =>
    intro a r h
    cases a with
    | nil => simp at h
    | cons arow rt =>
      cases r with
      | zero =>
        show ((arow.set i _).length) = arow.length
        exact List.length_set arow ..
      | succ r =>
        show ((setColScaled i mean std dt rt).getD r []).length = (rt.getD r []).length
        exact ih rt r (by simpa using h)

/-- The column write changes no entry outside column `i`. -/
theorem matEntry_setColScaled_ne (i : ℕ) (mean std : ℚ) :
    ∀ (d a : Mat) (r j : ℕ), d.length = a.length → j ≠ i →
      matEntry (setColScaled i mean std d a) r j = matEntry a r j := by
  intro d
  induction d with
  | nil =>
    intro a r j h _
    cases a with
    | nil => rfl
    | cons arow rt => simp at h
  | cons drow dt ih =>
    intro a r j h hj
    cases a with
    | nil => simp at h
    | cons arow rt =>
      cases r with
      | zero =>
        show (arow.set i _).getD j 0 = arow.getD j 0
        exact getD_set_ne _ arow i j (fun he => hj (by rw [he]))
      | succ r =>
        show matEntry (setColScaled i mean std dt rt) r j = matEntry rt r j
        exact ih rt r j (by simpa using h) hj

/-- Within bounds, the column write stores the scaled original entry. -/
theorem matEntry_setColScaled_self (i : ℕ) (mean std : ℚ) :
    ∀ (d a : Mat) (r : ℕ), d.length = a.length → r < d.length →
      i < (a.getD r []).length →
      matEntry (setColScaled i mean std d a) r i = matEntry d r i * std + mean := by
  intro d
  induction d with
  | nil => intro a r _ hr _; exact absurd hr (Nat.not_lt_zero r)
  | cons drow dt ih =>
    intro a r h hr hi
    cases a with
    | nil => simp at h
    | cons arow rt =>
      cases r with
      | zero =>
        show (arow.set i (drow.getD i 0 * std + mean)).getD i 0 = drow.getD i 0 * std + mean
        exact getD_set_self _ arow i hi
      | succ r =>
        show matEntry (setColScaled i mean std dt rt) r i = matEntry dt r i * std + mean
        exact ih rt r (by simpa using h) (by simpa using hr) hi

/-- Loop equation: empty name list. -/
theorem unscaleLoop_nil {α : Type} (data : Mat) (info : α → ℚ × ℚ) (i : ℕ) (acc : Mat) :
    unscaleLoop data info i ([] : List α) acc = (acc, false) := rfl

/-- Loop equation: index out of bounds, warn and break. -/
theorem unscaleLoop_cons_stop {α : Type} (data : Mat) (info : α → ℚ × ℚ) (i : ℕ)
    (c : α) (rest : List α) (acc : Mat) (h : numColumns data ≤ i) :
    unscaleLoop data info i (c :: rest) acc = (acc, true) := by
  show (if numColumns data ≤ i then (acc, true)
        else unscaleLoop data info (i + 1) rest
          (setColScaled i (info c).1 (info c).2 data acc)) = _
  rw [if_pos h]

/-- Loop equation: in-bounds index, write the column and continue. -/
theorem unscaleLoop_cons_go {α : Type} (data : Mat) (info : α → ℚ × ℚ) (i : ℕ)
    (c : α) (rest : List α) (acc : Mat) (h : ¬numColumns data ≤ i) :
    unscaleLoop data info i (c :: rest) acc
      = unscaleLoop data info (i + 1) rest
          (setColScaled i (info c).1 (info c).2 data acc) := by
  show (if numColumns data ≤ i then (acc, true)
        else unscaleLoop data info (i + 1) rest
          (setColScaled i (info c).1 (info c).2 data acc)) = _
  rw [if_neg h]

/-- The loop preserves the row count. -/
theorem unscaleLoop_length {α : Type} (data : Mat) (info : α → ℚ × ℚ) :
    ∀ (names : List α) (i : ℕ) (acc : Mat), acc.length = data.length →
      (unscaleLoop data info i names acc).1.length = data.length := by
  intro names
  induction names with
  | nil => intro i acc h; exact h
  | cons c rest ih =>
    intro i acc h
    by_cases hb : numColumns data ≤ i
    · rw [unscaleLoop_cons_stop data info i c rest acc hb]
      exact h
    · rw [unscaleLoop_cons_go data info i c rest acc hb]
      exact ih (i + 1) _ (by rw [setColScaled_length, h]; omega)

/-- The loop preserves every row length. -/
theorem unscaleLoop_row_length {α : Type} (data : Mat) (info : α → ℚ × ℚ) :
    ∀ (names : List α) (i : ℕ) (acc : Mat), acc.length = data.length →
      (∀ r, (acc.getD r []).length = (data.getD r []).length) →
      ∀ r, ((unscaleLoop data info i names acc).1.getD r []).length
        = (data.getD r []).length := by
  intro names
  induction names with
  | nil => intro i acc _ hrows r; exact hrows r
  | cons c rest ih =>
    intro i acc h hrows r
    by_cases hb : numColumns data ≤ i
    · rw [unscaleLoop_cons_stop data info i c rest acc hb]
      exact hrows r
    · rw [unscaleLoop_cons_go data info i c rest acc hb]
      refine ih (i + 1) _ (by rw [setColScaled_length, h]; omega) ?_ r
      intro q
      rw [setColScaled_row_length i _ _ data acc q h.symm]
      exact hrows q

/-- Columns outside the written range keep the accumulator's values. -/
theorem unscaleLoop_untouched {α : Type} (data : Mat) (info : α → ℚ × ℚ) :
    ∀ (names : List α) (i : ℕ) (acc : Mat), acc.length = data.length →
      ∀ j, (j < i ∨ i + names.length ≤ j ∨ numColumns data ≤ j) →
      ∀ r, matEntry (unscaleLoop data info i names acc).1 r j = matEntry acc r j := by
  intro names
  induction names with
  | nil => intro i acc _ j _ r; rfl
  | cons c rest ih =>
    intro i acc h j hj r
    by_cases hb : numColumns data ≤ i
    · rw [unscaleLoop_cons_stop data info i c rest acc hb]
    · rw [unscaleLoop_cons_go data info i c rest acc hb]
      have hlc : (c :: rest).length = rest.length + 1 := rfl
      have hj2 : j < i + 1 ∨ (i + 1) + rest.length ≤ j ∨ numColumns data ≤ j := by
        rcases hj with h1 | h1 | h1
        · omega
        · rw [hlc] at h1; omega
        · omega
      rw [ih (i + 1) _ (by rw [setColScaled_length, h]; omega) j hj2 r]
      refine matEntry_setColScaled_ne i _ _ data acc r j h.symm ?_
      rcases hj with h1 | h1 | h1
      · omega
      · rw [hlc] at h1; omega
      · omega

/-- Row `r` of `data` has length `num_columns` when `data` is rectangular. -/
theorem row_length_of_rect (data : Mat)
    (hrect : ∀ row ∈ data, row.length = numColumns data) :
    ∀ r, r < data.length → (data.getD r []).length = numColumns data := by
  intro r hr
  rw [List.getD_eq_getElem data [] hr]
  exact hrect _ (List.getElem_mem hr)

/-- Column `i + k` (the one processed with name `names[k]`) of the loop's
result holds the scaled original data. -/
theorem unscaleLoop_written {α : Type} (data : Mat) (info : α → ℚ × ℚ) (dflt : α)
    (hrect : ∀ row ∈ data, row.length = numColumns data) :
    ∀ (names : List α) (k i : ℕ) (acc : Mat), acc.length = data.length →
      (∀ r, (acc.getD r []).length = (data.getD r []).length) →
      k < names.length → i + k < numColumns data →
      ∀ r, r < data.length →
        matEntry (unscaleLoop data info i names acc).1 r (i + k)
          = matEntry data r (i + k) * (info (names.getD k dflt)).2
              + (info (names.getD k dflt)).1 := by
  intro names
  induction names with
  | nil => intro k i acc _ _ hk _ r _; exact absurd hk (Nat.not_lt_zero k)
  | cons c rest ih =>
    intro k i acc h hrows hk hcol r hr
    have hb : ¬numColumns data ≤ i := by omega
    rw [unscaleLoop_cons_go data info i c rest acc hb]
    cases k with
    | zero =>
      simp only [Nat.add_zero] at hcol ⊢
      rw [unscaleLoop_untouched data info rest (i + 1) _
        (by rw [setColScaled_length, h]; omega) i (by omega) r]
      show matEntry (setColScaled i (info c).1 (info c).2 data acc) r i = _
      rw [matEntry_setColScaled_self i _ _ data acc r h.symm hr
        (by rw [hrows r, row_length_of_rect data hrect r hr]; omega)]
      rfl
    | succ k =>
      have hadd : i + (k + 1) = (i + 1) + k := by omega
      rw [hadd]
      show matEntry (unscaleLoop data info (i + 1) rest _).1 r ((i + 1) + k)
        = matEntry data r ((i + 1) + k) * (info (rest.getD k dflt)).2
            + (info (rest.getD k dflt)).1
      refine ih k (i + 1) _ (by rw [setColScaled_length, h]; omega) ?_
        (by simpa using hk) (by omega) r hr
      intro q
      rw [setColScaled_row_length i _ _ data acc q h.symm]
      exact hrows q

/-- The warning fires exactly when the names outrun the columns. -/
theorem unscaleLoop_warn {α : Type} (data : Mat) (info : α → ℚ × ℚ) :
    ∀ (names : List α) (i : ℕ) (acc : Mat),
      (unscaleLoop data info i names acc).2 = true
        ↔ (names ≠ [] ∧ numColumns data < i + names.length) := by
  intro names
  induction names with
  | nil =>
    intro i acc
    simp [unscaleLoop_nil]
  | cons c rest ih =>
    intro i acc
    by_cases hb : numColumns data ≤ i
    · rw [unscaleLoop_cons_stop data info i c rest acc hb]
      simp only [List.length_cons]
      constructor
      · intro _
        exact ⟨List.cons_ne_nil c rest, by omega⟩
      · intro _
        trivial
    · rw [unscaleLoop_cons_go data info i c rest acc hb, ih (i + 1) _]
      cases rest with
      | nil =>
        simp only [List.length_cons, List.length_nil]
        constructor
        · intro hfalse
          exact absurd hfalse.1 (by intro h2; exact h2 rfl)
        · intro hfalse
          exact absurd hfalse.2 (by omega)
      | cons c2 rest2 =>
        simp only [List.length_cons]
        constructor
        · intro hh
          exact ⟨List.cons_ne_nil c (c2 :: rest2), by have := hh.2; omega⟩
        · intro hh
          exact ⟨List.cons_ne_nil c2 rest2, by have := hh.2; omega⟩

/-- The loop ignores every name past the column count. -/
theorem unscaleLoop_truncate {α : Type} (data : Mat) (info : α → ℚ × ℚ) :
    ∀ (names : List α) (i : ℕ) (acc : Mat),
      (unscaleLoop data info i names acc).1
        = (unscaleLoop data info i (names.take (numColumns data - i)) acc).1 := by
  intro names
  induction names with
  | nil => intro i acc; rw [List.take_nil]
  | cons c rest ih =>
    intro i acc
    by_cases hb : numColumns data ≤ i
    · have h0 : numColumns data - i = 0 := by omega
      rw [h0, List.take_zero, unscaleLoop_cons_stop data info i c rest acc hb,
        unscaleLoop_nil]
    · have h1 : numColumns data - i = (numColumns data - (i + 1)) + 1 := by omega
      rw [h1, List.take_succ_cons, unscaleLoop_cons_go data info i c rest acc hb,
        unscaleLoop_cons_go data info i c _ acc hb]
      exact ih (i + 1) _

/-- C8: `unscale` rebuilds every requested in-range column `i` as
`data[:, i] * std + mean` from that column name's metadata; and when more
names are requested than the data has columns, it processes exactly the
first `num_columns` names, prints the warning, and returns normally with
the same array it would produce for the truncated name list. -/
theorem unscale_spec {α : Type} (data : Mat) (column_names : List α)
    (scaling_info : α → ℚ × ℚ) (dflt : α)
    (hrect : ∀ row ∈ data, row.length = numColumns data) :
    (∀ i, i < min column_names.length (numColumns data) →
        ∀ r, r < data.length →
          matEntry (unscale data column_names scaling_info).1 r i
            = matEntry data r i * (scaling_info (column_names.getD i dflt)).2
                + (scaling_info (column_names.getD i dflt)).1)
    ∧ (numColumns data < column_names.length →
        (unscale data column_names scaling_info).2 = true
        ∧ (unscale data column_names scaling_info).1
            = (unscale data (column_names.take (numColumns data)) scaling_info).1) := by
  constructor
  · intro i hi r hr
    have h := unscaleLoop_written data scaling_info dflt hrect column_names i 0 data rfl
      (fun _ => rfl) (by omega) (by omega) r hr
    simpa using h
  · intro hlen
    constructor
    · exact (unscaleLoop_warn data scaling_info column_names 0 data).mpr
        ⟨List.ne_nil_of_length_pos (by omega), by omega⟩
    · have h := unscaleLoop_truncate data scaling_info column_names 0 data
      simpa using h

/-- C8 witness: data `[[1, 2]]` with three requested names keyed 0, 1, 2:
column 0 is rebuilt as `1 * 2 + 1 = 3` and the warning fires. -/
theorem unscale_spec_witness :
    matEntry (unscale [[(1 : ℚ), 2]] [0, 1, 2]
        (fun c : ℕ => if c = 0 then ((1 : ℚ), (2 : ℚ)) else if c = 1 then (3, 4) else (5, 6))).1
      0 0 = 3
    ∧ (unscale [[(1 : ℚ), 2]] [0, 1, 2]
        (fun c : ℕ => if c = 0 then ((1 : ℚ), (2 : ℚ)) else if c = 1 then (3, 4) else (5, 6))).2
      = true := by
  have h := unscale_spec [[(1 : ℚ), 2]] [0, 1, 2]
    (fun c : ℕ => if c = 0 then ((1 : ℚ), (2 : ℚ)) else if c = 1 then (3, 4) else (5, 6)) 0
    (by decide)
  constructor
  · have h1 := h.1 0 (by decide) 0 (by decide)
    rw [h1]
    norm_num [matEntry]
  · exact (h.2 (by decide)).1

/-- C10: frame property of `unscale`.  The source copies its input
(`data.copy()`) and writes only the copy, which the value semantics of
this embedding reflects; accordingly the result has exactly the shape of
`data`, and every column at an index not covered by the requested names,
as well as every column beyond the truncation point, keeps its original
scaled values unchanged. -/
theorem unscale_frame {α : Type} (data : Mat) (column_names : List α)
    (scaling_info : α → ℚ × ℚ) :
    (unscale data column_names scaling_info).1.length = data.length
    ∧ (∀ r, ((unscale data column_names scaling_info).1.getD r []).length
          = (data.getD r []).length)
    ∧ (∀ j, column_names.length ≤ j ∨ numColumns data ≤ j →
        ∀ r, matEntry (unscale data column_names scaling_info).1 r j
          = matEntry data r j) := by
  refine ⟨?_, ?_, ?_⟩
  · exact unscaleLoop_length data scaling_info column_names 0 data rfl
  · exact unscaleLoop_row_length data scaling_info column_names 0 data rfl (fun _ => rfl)
  · intro j hj r
    exact unscaleLoop_untouched data scaling_info column_names 0 data rfl j (by omega) r

/-- C10 witness: with one requested name, the uncovered column 1 of
`[[1, 2]]` keeps its value 2, and the shape is preserved. -/
theorem unscale_frame_witness :
    (unscale [[(1 : ℚ), 2]] [0] (fun _ : ℕ => ((5 : ℚ), (7 : ℚ)))).1.length = 1
    ∧ matEntry (unscale [[(1 : ℚ), 2]] [0] (fun _ : ℕ => ((5 : ℚ), (7 : ℚ)))).1 0 1 = 2 := by
  have h := unscale_frame [[(1 : ℚ), 2]] [0] (fun _ : ℕ => ((5 : ℚ), (7 : ℚ)))
  constructor
  · rw [h.1]
    rfl
  · have h2 := h.2.2 1 (Or.inl (by decide)) 0
    rw [h2]
    norm_num [matEntry]
